import Mathlib

/-!
Shallow embedding of the `libcpp-util` repository (sorted_vector.h,
semaphore.h, raw_array.h) and verification of its specification.

The container `sorted_vector<Key, Compare>` stores its elements in a
`std::vector<Key>`; we model the storage as a `List α` and an iterator as a
`Nat` index into that list (`l.length` is the `end()` sentinel).  The
comparator is a function `comp : α → α → Bool`, matching the `Compare`
template parameter.  Out-of-range accesses through `List.getD` use an
arbitrary default; every place a default is supplied corresponds to a
dereference the C++ code only performs when the index is in range.
-/

namespace LibcppUtil

universe u

variable {α : Type u}

/-- `equivalent(k1, k2)` from sorted_vector.h: `!comp(k1, k2) && !comp(k2, k1)`. -/
def equivalent (comp : α → α → Bool) (k1 k2 : α) : Bool :=
  !comp k1 k2 && !comp k2 k1

/-- `greater(k1, k2)` from sorted_vector.h: `comp(k2, k1)`. -/
def greater (comp : α → α → Bool) (k1 k2 : α) : Bool :=
  comp k2 k1

/-- Models `std::lower_bound(begin(), end(), key, comp)`: the index of the
first element `e` for which `comp e key` is false (`l.length` if none).
On a range sorted by `comp` this is exactly the contract of the C++
binary search. -/
def lower_bound (comp : α → α → Bool) : List α → α → Nat
  | [], _ => 0
  | x :: xs, k => if comp x k then lower_bound comp xs k + 1 else 0

/-- Models `std::upper_bound(begin(), end(), key, comp)`: the index of the
first element `e` for which `comp key e` is true (`l.length` if none). -/
def upper_bound (comp : α → α → Bool) : List α → α → Nat
  | [], _ => 0
  | x :: xs, k => if comp k x then 0 else upper_bound comp xs k + 1

/-- `equal_range(key)`: `std::equal_range` over the storage. -/
def equal_range (comp : α → α → Bool) (l : List α) (k : α) : Nat × Nat :=
  (lower_bound comp l k, upper_bound comp l k)

/-- `count(key)`: `std::distance` applied to `equal_range(key)`. -/
def count (comp : α → α → Bool) (l : List α) (k : α) : Nat :=
  (equal_range comp l k).2 - (equal_range comp l k).1

/-- `find(key)` exactly as written in sorted_vector.h:

    auto I = lower_bound(key);
    if (I == end() || comp(key, *I))
        return I;
    return end();

Note the branches: the function returns `I` in the "not found" case and
`end()` in the "found" case. -/
def find (comp : α → α → Bool) (l : List α) (k : α) : Nat :=
  let I := lower_bound comp l k
  if I = l.length then I
  else if comp k (l.getD I k) then I
  else l.length

/-- `erase(const key_type&)` from sorted_vector.h: erase at `find(key)`
when that is not `end()`, returning the number of elements removed. -/
def erase_key (comp : α → α → Bool) (l : List α) (k : α) : List α × Nat :=
  let I := find comp l k
  if I ≠ l.length then (l.eraseIdx I, 1) else (l, 0)

/-- `erase(const_iterator pos)`: `storage.erase(pos)`. -/
def erase_pos (l : List α) (i : Nat) : List α :=
  l.eraseIdx i

/-- `insert(const value_type&)` from sorted_vector.h: look up
`lower_bound(value)`; if a dereferenceable equivalent element sits there the
call is a no-op returning `(I, false)`, otherwise the value is inserted at
that position and the call returns `(position, true)`. -/
def insert (comp : α → α → Bool) (l : List α) (v : α) : List α × Nat × Bool :=
  let I := lower_bound comp l v
  if I ≠ l.length ∧ equivalent comp (l.getD I v) v = true then (l, I, false)
  else (l.insertIdx I v, I, true)

/-- `good_hint(hint, k)` from sorted_vector.h:

    if (hint != begin() && !greater(k, *std::prev(hint))) return false;
    if (hint != end() && !comp(k, *hint)) return false;
    return true;

written as the equivalent conjunction of disjunctions.  The C++ code only
dereferences `prev(hint)` (resp. `hint`) when `hint ≠ begin()`
(resp. `hint ≠ end()`); the `getD` defaults are never relevant then. -/
def good_hint (comp : α → α → Bool) (l : List α) (hint : Nat) (k : α) : Bool :=
  (decide (hint = 0) || greater comp k (l.getD (hint - 1) k)) &&
    (decide (hint = l.length) || comp k (l.getD hint k))

/-- `insert(const_iterator hint, const value_type&)` from sorted_vector.h,
modelled by its effect on the stored contents: insert directly at `hint`
when `good_hint` accepts it, otherwise fall back to the general `insert`.
(The C++ overload is declared to return an `iterator` but contains no
`return` statement; only its effect on the container is specified.) -/
def insert_hint (comp : α → α → Bool) (l : List α) (hint : Nat) (v : α) :
    List α :=
  if good_hint comp l hint v then l.insertIdx hint v
  else (insert comp l v).1

/-- `emplace(args...)` from sorted_vector.h, after the candidate value has
been constructed: three-way branch on `lower_bound`, exactly as in the
source (`I == end()` inserts, an equivalent occupant is a no-op reporting
`false`, otherwise insert at `I`). -/
def emplace (comp : α → α → Bool) (l : List α) (v : α) : List α × Nat × Bool :=
  let I := lower_bound comp l v
  if I = l.length then (l.insertIdx I v, I, true)
  else if equivalent comp (l.getD I v) v then (l, I, false)
  else (l.insertIdx I v, I, true)

/-- Helper for `uniqueBy`: models the scanning state of `std::unique`,
where `prev` is the last element kept in the result and each next element
equivalent to it is dropped. -/
def uniqueAux (eqv : α → α → Bool) (prev : α) : List α → List α
  | [] => []
  | y :: ys => if eqv prev y then uniqueAux eqv prev ys
               else y :: uniqueAux eqv y ys

/-- Models `storage.erase(std::unique(first, last, eqv), end())`: collapse
each run of adjacent `eqv`-equivalent elements to its first element. -/
def uniqueBy (eqv : α → α → Bool) : List α → List α
  | [] => []
  | x :: xs => x :: uniqueAux eqv x xs

/-- Insertion step of the model of `std::sort`: place `x` before the first
element `y` with `¬ comp y x`. -/
def sortInsert (comp : α → α → Bool) (x : α) : List α → List α
  | [] => [x]
  | y :: ys => if comp y x then y :: sortInsert comp x ys else x :: y :: ys

/-- Models `std::sort(first, last, comp)` by insertion sort: the result is
a permutation of the input that is sorted with respect to `comp`, which is
all `std::sort` guarantees. -/
def sortBy (comp : α → α → Bool) : List α → List α
  | [] => []
  | x :: xs => sortInsert comp x (sortBy comp xs)

/-- `sort_unique(first, last)` from sorted_vector.h: `std::sort` with the
comparator, then drop adjacent equivalent elements. -/
def sort_unique (comp : α → α → Bool) (l : List α) : List α :=
  uniqueBy (fun a b => equivalent comp a b) (sortBy comp l)

/-- The range / initializer-list constructors of `sorted_vector`: copy the
input into storage, then `sort_unique(begin(), end())`. -/
def of_list (comp : α → α → Bool) (l : List α) : List α :=
  sort_unique comp l

/-- Bulk `insert(first, last)` from sorted_vector.h: on an empty container,
splice the range in and `sort_unique`; otherwise insert one element at a
time (the `reserve` call only affects capacity). -/
def insert_range (comp : α → α → Bool) (l vs : List α) : List α :=
  if l.isEmpty then sort_unique comp vs
  else vs.foldl (fun acc v => (insert comp acc v).1) l

/-- All adjacent pairs of the list satisfy `p`. -/
def allAdjacent (p : α → α → Bool) : List α → Bool
  | [] => true
  | [_] => true
  | x :: y :: xs => p x y && allAdjacent p (y :: xs)

/-- `std::is_sorted(begin(), end(), comp)`: no adjacent pair is out of
order, i.e. for adjacent `a, b` never `comp b a`. -/
def is_sorted (comp : α → α → Bool) (l : List α) : Bool :=
  allAdjacent (fun a b => !comp b a) l

/-- `validate()` from sorted_vector.h: `std::is_sorted` with the
comparator, and `std::adjacent_find` with `equivalent` finds nothing. -/
def validate (comp : α → α → Bool) (l : List α) : Bool :=
  is_sorted comp l && allAdjacent (fun a b => !equivalent comp a b) l

/-- One mutating call of the public API.  Operations act on the first of a
pair of containers; `swapOp` models `swap(other)` with the second one and
`assignOtherOp` models copy assignment from it. -/
inductive Op (α : Type u) where
  | insertOp (v : α)
  | insertHintOp (hint : Nat) (v : α)
  | insertRangeOp (vs : List α)
  | emplaceOp (v : α)
  | erasePosOp (i : Nat)
  | eraseKeyOp (k : α)
  | clearOp
  | swapOp
  | assignListOp (vs : List α)
  | assignOtherOp

/-- Effect of one public mutating call on a pair of containers. -/
def applyOp (comp : α → α → Bool) : Op α → List α × List α → List α × List α
  | .insertOp v, (a, b) => ((insert comp a v).1, b)
  | .insertHintOp h v, (a, b) => (insert_hint comp a h v, b)
  | .insertRangeOp vs, (a, b) => (insert_range comp a vs, b)
  | .emplaceOp v, (a, b) => ((emplace comp a v).1, b)
  | .erasePosOp i, (a, b) => (erase_pos a i, b)
  | .eraseKeyOp k, (a, b) => ((erase_key comp a k).1, b)
  | .clearOp, (_, b) => ([], b)
  | .swapOp, (a, b) => (b, a)
  | .assignListOp vs, (_, b) => (sort_unique comp vs, b)
  | .assignOtherOp, (_, b) => (b, b)

/-- A whole sequence of mutating calls. -/
def applyOps (comp : α → α → Bool) (ops : List (Op α))
    (s : List α × List α) : List α × List α :=
  ops.foldl (fun t op => applyOp comp op t) s

/-- The comparator induced by a linear order, the model of `std::less`. -/
def cmpLt {β : Type u} [LinearOrder β] : β → β → Bool :=
  fun a b => decide (a < b)

/-! ### semaphore.h

`cpputil::semaphore` holds two `unsigned` fields behind a spinlock; every
method runs entirely under the lock, so each is modelled as a function on
the state.  `unsigned` arithmetic wraps modulo `2 ^ 32`; the only increment
is in `post`/`post_all` and is taken modulo `UINT_MOD` there. -/

/-- Wrap-around modulus of the `unsigned` counters of `semaphore`. -/
def UINT_MOD : Nat := 2 ^ 32

/-- State of `cpputil::semaphore`: the `unsigned count` and
`unsigned waiters` fields (the spinlock and the condition variable carry
no data of their own). -/
structure Semaphore where
  count : Nat
  waiters : Nat
  deriving DecidableEq

/-- `semaphore::post()` under the lock: increment the count and, when a
waiter exists, take one off the waiter count before signalling. -/
def Semaphore.post (s : Semaphore) : Semaphore :=
  let s' : Semaphore := { s with count := (s.count + 1) % UINT_MOD }
  if 0 < s'.waiters then { s' with waiters := s'.waiters - 1 } else s'

/-- `semaphore::post_all()` under the lock. -/
def Semaphore.post_all (s : Semaphore) : Semaphore :=
  { count := (s.count + s.waiters) % UINT_MOD, waiters := 0 }

/-- `semaphore::try_wait()` under the lock, exactly the branch in the
source:

    if (count > 0) { count--; return true; } else { return false; }
-/
def Semaphore.try_wait (s : Semaphore) : Semaphore × Bool :=
  if 0 < s.count then ({ s with count := s.count - 1 }, true) else (s, false)

/-- `semaphore::value()` under the lock. -/
def Semaphore.value (s : Semaphore) : Nat := s.count

/-! ### raw_array.h -/

/-- `raw_array<T, N>`: `N` slots of suitably sized uninitialized storage.
A slot holds `none` until a `T` object has been written into it through
`operator[]`; alignment and byte-level layout are not modelled.  An index
is a `Fin N`, recording the precondition `i < N` of the unchecked
`operator[]`. -/
structure RawArray (β : Type u) (N : Nat) where
  data : Fin N → Option β

/-- `raw_array::capacity()`: the template parameter `N`, independent of the
contents. -/
def RawArray.capacity {β : Type u} {N : Nat} (_ : RawArray β N) : Nat := N

/-- Reading element `i` through `operator[]`. -/
def RawArray.read {β : Type u} {N : Nat} (a : RawArray β N) (i : Fin N) :
    Option β :=
  a.data i

/-- Writing `v` into element `i` through `operator[]`. -/
def RawArray.write {β : Type u} {N : Nat} (a : RawArray β N) (i : Fin N)
    (v : β) : RawArray β N :=
  ⟨Function.update a.data i (some v)⟩

/-- A concrete two-slot `raw_array<unsigned, 2>` with nothing written yet. -/
def rawArrayEx : RawArray Nat 2 :=
  ⟨fun _ => none⟩

/-! ### Generic helper lemmas (arbitrary comparator) -/

theorem allAdjacent_iff_chain' {p : α → α → Bool} :
    ∀ {l : List α}, allAdjacent p l = true ↔
      List.Chain' (fun a b => p a b = true) l
  | [] => by simp [allAdjacent]
  | [x] => by simp [allAdjacent]
  | x :: y :: xs => by
    rw [allAdjacent, Bool.and_eq_true, List.chain'_cons, allAdjacent_iff_chain']

theorem chain'_and_iff {R S : α → α → Prop} :
    ∀ {l : List α}, List.Chain' (fun a b => R a b ∧ S a b) l ↔
      List.Chain' R l ∧ List.Chain' S l
  | [] => by simp
  | [x] => by simp
  | x :: y :: xs => by
    rw [List.chain'_cons, List.chain'_cons, List.chain'_cons,
      chain'_and_iff (l := y :: xs)]
    tauto

theorem chain'_iff_of_pointwise {R S : α → α → Prop}
    (h : ∀ a b, R a b ↔ S a b) {l : List α} :
    List.Chain' R l ↔ List.Chain' S l :=
  ⟨fun hc => hc.imp fun a b hab => (h a b).1 hab,
   fun hc => hc.imp fun a b hab => (h a b).2 hab⟩

theorem lower_bound_le_length (comp : α → α → Bool) :
    ∀ (l : List α) (k : α), lower_bound comp l k ≤ l.length
  | [], _ => Nat.le_refl 0
  | x :: xs, k => by
    rw [lower_bound]
    split
    · exact Nat.succ_le_succ (lower_bound_le_length comp xs k)
    · exact Nat.zero_le _

theorem lower_bound_getD_lt (comp : α → α → Bool) (d : α) :
    ∀ (l : List α) (k : α) (j : Nat), j < lower_bound comp l k →
      comp (l.getD j d) k = true
  | [], _, j => by simp [lower_bound]
  | x :: xs, k, j => by
    rw [lower_bound]
    split
    · intro hj
      cases j with
      | zero => simpa [List.getD_cons_zero] using ‹comp x k = true›
      | succ j' =>
        rw [List.getD_cons_succ]
        exact lower_bound_getD_lt comp d xs k j' (Nat.lt_of_succ_lt_succ hj)
    · intro hj
      exact absurd hj (Nat.not_lt_zero j)

theorem lower_bound_getD_self (comp : α → α → Bool) (d : α) :
    ∀ (l : List α) (k : α), lower_bound comp l k < l.length →
      comp (l.getD (lower_bound comp l k) d) k = false
  | [], k => by simp [lower_bound]
  | x :: xs, k => by
    rw [lower_bound]
    split
    · intro h
      rw [List.getD_cons_succ]
      exact lower_bound_getD_self comp d xs k (by simpa using h)
    · intro _
      rw [List.getD_cons_zero]
      exact Bool.not_eq_true _ ▸ Bool.of_not_eq_true ‹¬comp x k = true›

theorem lower_bound_eq_of (comp : α → α → Bool) (d : α) :
    ∀ (l : List α) (k : α) (m : Nat), m ≤ l.length →
      (∀ j, j < m → comp (l.getD j d) k = true) →
      (m < l.length → comp (l.getD m d) k = false) →
      lower_bound comp l k = m
  | [], _, m, hm, _, _ => by
    rw [lower_bound]
    exact (Nat.le_zero.1 hm).symm
  | x :: xs, k, m, hm, hlt, hge => by
    rw [lower_bound]
    cases m with
    | zero =>
      have hx : comp x k = false := by
        simpa [List.getD_cons_zero] using hge (Nat.succ_pos _)
      rw [if_neg (by simp [hx])]
    | succ m' =>
      have hx : comp x k = true := by
        simpa [List.getD_cons_zero] using hlt 0 (Nat.succ_pos _)
      rw [if_pos hx]
      have := lower_bound_eq_of comp d xs k m'
        (Nat.le_of_succ_le_succ hm)
        (fun j hj => by
          simpa [List.getD_cons_succ] using hlt (j + 1) (Nat.succ_lt_succ hj))
        (fun h => by
          simpa [List.getD_cons_succ] using hge (Nat.succ_lt_succ h))
      omega

theorem emplace_eq_insert (comp : α → α → Bool) (l : List α) (v : α) :
    emplace comp l v = insert comp l v := by
  rw [emplace, insert]
  by_cases h1 : lower_bound comp l v = l.length
  · rw [if_pos h1, if_neg fun hc => hc.1 h1]
  · rw [if_neg h1]
    by_cases h2 : equivalent comp (l.getD (lower_bound comp l v) v) v = true
    · rw [if_pos h2, if_pos ⟨h1, h2⟩]
    · rw [if_neg h2, if_neg fun hc => h2 hc.2]

theorem applyOps_cons (comp : α → α → Bool) (op : Op α) (ops : List (Op α))
    (s : List α × List α) :
    applyOps comp (op :: ops) s = applyOps comp ops (applyOp comp op s) := rfl

/-! ### Helper lemmas for the comparator of a linear order -/

section Ordered

variable [LinearOrder α]

theorem cmpLt_eq_true_iff {a b : α} : cmpLt a b = true ↔ a < b := by
  simp [cmpLt]

theorem cmpLt_eq_false_iff {a b : α} : cmpLt a b = false ↔ b ≤ a := by
  simp [cmpLt, not_lt]

theorem equivalent_cmpLt_iff {a b : α} : equivalent cmpLt a b = true ↔ a = b := by
  simp only [equivalent, cmpLt, Bool.and_eq_true, Bool.not_eq_true',
    decide_eq_false_iff_not, not_lt]
  constructor
  · rintro ⟨h1, h2⟩
    exact le_antisymm h2 h1
  · rintro rfl
    exact ⟨le_refl _, le_refl _⟩

theorem validate_iff {l : List α} :
    validate cmpLt l = true ↔ List.Chain' (· < ·) l := by
  rw [validate, Bool.and_eq_true, is_sorted, allAdjacent_iff_chain',
    allAdjacent_iff_chain', ← chain'_and_iff]
  refine chain'_iff_of_pointwise fun a b => ?_
  rw [Bool.not_eq_true', Bool.not_eq_true', cmpLt_eq_false_iff]
  constructor
  · rintro ⟨h1, h2⟩
    refine lt_of_le_of_ne h1 fun he => ?_
    rw [equivalent_cmpLt_iff.2 he] at h2
    exact Bool.noConfusion h2
  · intro h
    refine ⟨le_of_lt h, ?_⟩
    rw [← Bool.not_eq_true]
    intro hc
    exact absurd (equivalent_cmpLt_iff.1 hc) (ne_of_lt h)

theorem validate_iff_sorted {l : List α} :
    validate cmpLt l = true ↔ List.Sorted (· < ·) l := by
  rw [validate_iff, List.chain'_iff_pairwise]
  exact Iff.rfl

theorem mem_iff_lower_bound {l : List α} (hs : List.Sorted (· < ·) l) {v : α} :
    v ∈ l ↔ lower_bound cmpLt l v < l.length ∧
      l.getD (lower_bound cmpLt l v) v = v := by
  constructor
  · intro hv
    obtain ⟨i, hi, hgi⟩ := List.mem_iff_getElem.1 hv
    rcases Nat.lt_trichotomy i (lower_bound cmpLt l v) with hlt | heq | hgt
    · exfalso
      have hcomp := lower_bound_getD_lt cmpLt v l v i hlt
      rw [List.getD_eq_getElem l v hi, hgi, cmpLt_eq_true_iff] at hcomp
      exact lt_irrefl v hcomp
    · subst heq
      refine ⟨hi, ?_⟩
      rw [List.getD_eq_getElem l v hi, hgi]
    · exfalso
      have hlb_len : lower_bound cmpLt l v < l.length := lt_trans hgt hi
      have h1 := lower_bound_getD_self cmpLt v l v hlb_len
      rw [List.getD_eq_getElem l v hlb_len, cmpLt_eq_false_iff] at h1
      have h2 : l[lower_bound cmpLt l v] < l[i] :=
        List.pairwise_iff_getElem.1 hs _ _ hlb_len hi hgt
      rw [hgi] at h2
      exact absurd (lt_of_le_of_lt h1 h2) (lt_irrefl v)
  · rintro ⟨h1, h2⟩
    rw [List.getD_eq_getElem l v h1] at h2
    exact h2 ▸ List.getElem_mem h1

theorem exists_equivalent_iff_mem {l : List α} {v : α} :
    (∃ i, i < l.length ∧ equivalent cmpLt (l.getD i v) v = true) ↔ v ∈ l := by
  constructor
  · rintro ⟨i, hi, he⟩
    rw [equivalent_cmpLt_iff, List.getD_eq_getElem l v hi] at he
    exact he ▸ List.getElem_mem hi
  · intro hv
    obtain ⟨i, hi, he⟩ := List.mem_iff_getElem.1 hv
    exact ⟨i, hi, equivalent_cmpLt_iff.2 (by rw [List.getD_eq_getElem l v hi, he])⟩

theorem insertIdx_lower_bound_eq (v : α) :
    ∀ l : List α, l.insertIdx (lower_bound cmpLt l v) v =
      List.orderedInsert (· ≤ ·) v l
  | [] => rfl
  | x :: xs => by
    rw [lower_bound, List.orderedInsert]
    by_cases h : x < v
    · rw [if_pos (cmpLt_eq_true_iff.2 h), if_neg (not_le.2 h),
        List.insertIdx_succ_cons, insertIdx_lower_bound_eq v xs]
    · rw [if_neg fun hc => h (cmpLt_eq_true_iff.1 hc), if_pos (not_lt.1 h),
        List.insertIdx_zero]

theorem insert_sorted_mem {l : List α} (hs : List.Sorted (· < ·) l) {v : α}
    (hv : v ∈ l) :
    insert cmpLt l v = (l, lower_bound cmpLt l v, false) := by
  obtain ⟨h1, h2⟩ := (mem_iff_lower_bound hs).1 hv
  rw [insert, if_pos ⟨Nat.ne_of_lt h1, equivalent_cmpLt_iff.2 h2⟩]

theorem insert_sorted_not_mem {l : List α} (hs : List.Sorted (· < ·) l) {v : α}
    (hv : v ∉ l) :
    insert cmpLt l v =
      (l.insertIdx (lower_bound cmpLt l v) v, lower_bound cmpLt l v, true) := by
  rw [insert, if_neg]
  rintro ⟨hne, heq⟩
  rw [equivalent_cmpLt_iff] at heq
  exact hv ((mem_iff_lower_bound hs).2
    ⟨lt_of_le_of_ne (lower_bound_le_length cmpLt l v) hne, heq⟩)

theorem sorted_lt_of_le_nodup {l : List α} (h1 : List.Sorted (· ≤ ·) l)
    (h2 : l.Nodup) : List.Sorted (· < ·) l :=
  List.Pairwise.imp (fun hab => lt_of_le_of_ne hab.1 hab.2) (h1.and h2)

theorem sorted_insertIdx_lower_bound {l : List α} (hs : List.Sorted (· < ·) l)
    {v : α} (hv : v ∉ l) :
    List.Sorted (· < ·) (l.insertIdx (lower_bound cmpLt l v) v) := by
  rw [insertIdx_lower_bound_eq]
  have hle : List.Sorted (· ≤ ·) l := hs.imp le_of_lt
  have h1 : List.Sorted (· ≤ ·) (List.orderedInsert (· ≤ ·) v l) :=
    hle.orderedInsert v l
  have hperm : List.Perm (List.orderedInsert (· ≤ ·) v l) (v :: l) :=
    List.perm_orderedInsert _ v l
  have hnd : (List.orderedInsert (· ≤ ·) v l).Nodup :=
    hperm.nodup_iff.2 (List.nodup_cons.2 ⟨hv, hs.nodup⟩)
  exact sorted_lt_of_le_nodup h1 hnd

theorem mem_insertIdx_lower_bound {l : List α} {v x : α} :
    x ∈ l.insertIdx (lower_bound cmpLt l v) v ↔ x = v ∨ x ∈ l := by
  rw [insertIdx_lower_bound_eq]
  exact List.mem_orderedInsert _

theorem insert_preserves {l : List α} (hs : List.Sorted (· < ·) l) (v : α) :
    List.Sorted (· < ·) (insert cmpLt l v).1 ∧
      ∀ x, x ∈ (insert cmpLt l v).1 ↔ x = v ∨ x ∈ l := by
  by_cases hv : v ∈ l
  · rw [insert_sorted_mem hs hv]
    exact ⟨hs, fun x => ⟨Or.inr, fun h => h.elim (fun he => he ▸ hv) id⟩⟩
  · rw [insert_sorted_not_mem hs hv]
    exact ⟨sorted_insertIdx_lower_bound hs hv, fun x => mem_insertIdx_lower_bound⟩

theorem good_hint_iff {l : List α} {h : Nat} {v : α} :
    good_hint cmpLt l h v = true ↔
      (h = 0 ∨ l.getD (h - 1) v < v) ∧ (h = l.length ∨ v < l.getD h v) := by
  rw [good_hint, Bool.and_eq_true, Bool.or_eq_true, Bool.or_eq_true, greater,
    cmpLt_eq_true_iff, cmpLt_eq_true_iff, decide_eq_true_eq, decide_eq_true_eq]

theorem good_hint_le_length {l : List α} {h : Nat} {v : α}
    (hg : good_hint cmpLt l h v = true) : h ≤ l.length := by
  by_contra hgt
  push_neg at hgt
  obtain ⟨-, h2⟩ := good_hint_iff.1 hg
  rcases h2 with he | hlt
  · omega
  · rw [List.getD_eq_default _ _ (le_of_lt hgt)] at hlt
    exact lt_irrefl v hlt

theorem good_hint_lower_bound {l : List α} (hs : List.Sorted (· < ·) l)
    {h : Nat} {v : α} (hg : good_hint cmpLt l h v = true) :
    lower_bound cmpLt l v = h ∧ v ∉ l := by
  have hle : h ≤ l.length := good_hint_le_length hg
  obtain ⟨h1, h2⟩ := good_hint_iff.1 hg
  have hpred : ∀ j, j < h → l.getD j v < v := by
    intro j hj
    have hj_len : j < l.length := lt_of_lt_of_le hj hle
    have hh1 : h - 1 < l.length := by omega
    rcases h1 with rfl | hlt
    · omega
    · rw [List.getD_eq_getElem l v hh1] at hlt
      rcases Nat.lt_or_ge j (h - 1) with hjlt | hjge
      · have hij : l[j] < l[h - 1] :=
          List.pairwise_iff_getElem.1 hs _ _ hj_len hh1 hjlt
        rw [List.getD_eq_getElem l v hj_len]
        exact lt_trans hij hlt
      · have hje : j = h - 1 := by omega
        rw [List.getD_eq_getElem l v hj_len]
        subst hje
        exact hlt
  have hnot : v ∉ l := by
    intro hv
    obtain ⟨i, hi, hgi⟩ := List.mem_iff_getElem.1 hv
    rcases Nat.lt_or_ge i h with hilt | hige
    · have := hpred i hilt
      rw [List.getD_eq_getElem l v hi, hgi] at this
      exact lt_irrefl v this
    · have hhlen : h < l.length := lt_of_le_of_lt hige hi
      rcases h2 with he | hvlt
      · omega
      · rw [List.getD_eq_getElem l v hhlen] at hvlt
        rcases Nat.eq_or_lt_of_le hige with he | hilt'
        · subst he
          rw [hgi] at hvlt
          exact lt_irrefl v hvlt
        · have hlt2 : l[h] < l[i] :=
            List.pairwise_iff_getElem.1 hs _ _ hhlen hi hilt'
          rw [hgi] at hlt2
          exact lt_irrefl v (lt_trans hvlt hlt2)
  refine ⟨lower_bound_eq_of cmpLt v l v h hle
    (fun j hj => cmpLt_eq_true_iff.2 (hpred j hj)) (fun hlen => ?_), hnot⟩
  rcases h2 with he | hvlt
  · omega
  · exact cmpLt_eq_false_iff.2 (le_of_lt hvlt)

theorem insert_hint_eq {l : List α} (hs : List.Sorted (· < ·) l)
    (h : Nat) (v : α) :
    insert_hint cmpLt l h v = (insert cmpLt l v).1 := by
  rw [insert_hint]
  split
  · rename_i hg
    obtain ⟨hlb, hv⟩ := good_hint_lower_bound hs hg
    rw [insert_sorted_not_mem hs hv, hlb]
  · rfl

theorem sortInsert_eq (v : α) : ∀ l : List α,
    sortInsert cmpLt v l = List.orderedInsert (· ≤ ·) v l
  | [] => rfl
  | y :: ys => by
    rw [sortInsert, List.orderedInsert]
    by_cases h : y < v
    · rw [if_pos (cmpLt_eq_true_iff.2 h), if_neg (not_le.2 h), sortInsert_eq v ys]
    · rw [if_neg fun hc => h (cmpLt_eq_true_iff.1 hc), if_pos (not_lt.1 h)]

theorem sortBy_eq : ∀ l : List α, sortBy cmpLt l = List.insertionSort (· ≤ ·) l
  | [] => rfl
  | x :: xs => by
    rw [sortBy, List.insertionSort, sortInsert_eq, sortBy_eq xs]

theorem sorted_sortBy (l : List α) : List.Sorted (· ≤ ·) (sortBy cmpLt l) := by
  rw [sortBy_eq]
  exact List.sorted_insertionSort _ l

theorem perm_sortBy (l : List α) : List.Perm (sortBy cmpLt l) l := by
  rw [sortBy_eq]
  exact List.perm_insertionSort _ l

theorem uniqueAux_spec :
    ∀ (ys : List α) (prev : α), List.Sorted (· ≤ ·) (prev :: ys) →
      List.Sorted (· < ·)
          (prev :: uniqueAux (fun a b => equivalent cmpLt a b) prev ys) ∧
        ∀ x, x ∈ uniqueAux (fun a b => equivalent cmpLt a b) prev ys ↔
          x ∈ ys ∧ x ≠ prev
  | [], prev, _ => by simp [uniqueAux, List.sorted_cons]
  | y :: ys, prev, h => by
    have hpy_le : prev ≤ y := List.rel_of_sorted_cons h y (List.mem_cons_self y ys)
    rw [uniqueAux]
    by_cases hpy : prev = y
    · rw [if_pos (equivalent_cmpLt_iff.2 hpy)]
      have h' : List.Sorted (· ≤ ·) (prev :: ys) := by
        rw [List.sorted_cons] at h ⊢
        exact ⟨fun b hb => h.1 b (List.mem_cons_of_mem y hb), h.2.of_cons⟩
      obtain ⟨h1, h2⟩ := uniqueAux_spec ys prev h'
      refine ⟨h1, fun x => ?_⟩
      rw [h2, List.mem_cons]
      subst hpy
      constructor
      · rintro ⟨hx, hxp⟩
        exact ⟨Or.inr hx, hxp⟩
      · rintro ⟨hor, hxp⟩
        rcases hor with rfl | hx
        · exact absurd rfl hxp
        · exact ⟨hx, hxp⟩
    · rw [if_neg fun hc => hpy (equivalent_cmpLt_iff.1 hc)]
      have hpy_lt : prev < y := lt_of_le_of_ne hpy_le hpy
      have h' : List.Sorted (· ≤ ·) (y :: ys) := h.of_cons
      obtain ⟨h1, h2⟩ := uniqueAux_spec ys y h'
      constructor
      · rw [List.sorted_cons]
        refine ⟨?_, h1⟩
        intro b hb
        rcases List.mem_cons.1 hb with rfl | hb'
        · exact hpy_lt
        · obtain ⟨hbys, hbny⟩ := (h2 b).1 hb'
          have hyb : y ≤ b := List.rel_of_sorted_cons h' b hbys
          exact lt_trans hpy_lt (lt_of_le_of_ne hyb (Ne.symm hbny))
      · intro x
        rw [List.mem_cons, h2, List.mem_cons]
        constructor
        · rintro (rfl | ⟨hx, hxy⟩)
          · exact ⟨Or.inl rfl, fun he => hpy he.symm⟩
          · refine ⟨Or.inr hx, fun he => ?_⟩
            have hyx : y ≤ x := List.rel_of_sorted_cons h' x hx
            have : prev < x := lt_of_lt_of_le hpy_lt hyx
            rw [he] at this
            exact lt_irrefl prev this
        · rintro ⟨hor, hxp⟩
          rcases hor with rfl | hx
          · exact Or.inl rfl
          · by_cases hxy : x = y
            · exact Or.inl hxy
            · exact Or.inr ⟨hx, hxy⟩

theorem uniqueBy_spec : ∀ l : List α, List.Sorted (· ≤ ·) l →
    List.Sorted (· < ·) (uniqueBy (fun a b => equivalent cmpLt a b) l) ∧
      ∀ x, x ∈ uniqueBy (fun a b => equivalent cmpLt a b) l ↔ x ∈ l
  | [], _ => by simp [uniqueBy]
  | x :: xs, h => by
    rw [uniqueBy]
    obtain ⟨h1, h2⟩ := uniqueAux_spec xs x h
    refine ⟨h1, fun y => ?_⟩
    rw [List.mem_cons, h2, List.mem_cons]
    by_cases hxy : y = x <;> tauto

theorem sort_unique_sorted (l : List α) :
    List.Sorted (· < ·) (sort_unique cmpLt l) :=
  (uniqueBy_spec (sortBy cmpLt l) (sorted_sortBy l)).1

theorem mem_sort_unique {l : List α} {x : α} :
    x ∈ sort_unique cmpLt l ↔ x ∈ l := by
  rw [sort_unique, (uniqueBy_spec (sortBy cmpLt l) (sorted_sortBy l)).2 x]
  exact (perm_sortBy l).mem_iff

theorem eq_of_sorted_lt_of_mem {l l' : List α} (h : List.Sorted (· < ·) l)
    (h' : List.Sorted (· < ·) l') (hm : ∀ x, x ∈ l ↔ x ∈ l') : l = l' := by
  haveI : IsAntisymm α (· < ·) := ⟨fun a b h1 h2 => absurd h2 (lt_asymm h1)⟩
  exact List.eq_of_perm_of_sorted
    ((List.perm_ext_iff_of_nodup h.nodup h'.nodup).2 hm) h h'

theorem foldl_insert_spec :
    ∀ (vs : List α) (l : List α), List.Sorted (· < ·) l →
      List.Sorted (· < ·) (vs.foldl (fun acc v => (insert cmpLt acc v).1) l) ∧
        ∀ x, x ∈ vs.foldl (fun acc v => (insert cmpLt acc v).1) l ↔
          x ∈ l ∨ x ∈ vs
  | [], l, h => by simp [h]
  | v :: vs, l, h => by
    rw [List.foldl_cons]
    obtain ⟨hins, hm⟩ := insert_preserves h v
    obtain ⟨h1, h2⟩ := foldl_insert_spec vs (insert cmpLt l v).1 hins
    refine ⟨h1, fun x => ?_⟩
    rw [h2, hm x, List.mem_cons]
    tauto

theorem insert_hint_preserves {l : List α} (hs : List.Sorted (· < ·) l)
    (h : Nat) (v : α) :
    List.Sorted (· < ·) (insert_hint cmpLt l h v) := by
  rw [insert_hint_eq hs h v]
  exact (insert_preserves hs v).1

theorem erase_key_fst_sorted {l : List α} (hs : List.Sorted (· < ·) l)
    (k : α) : List.Sorted (· < ·) (erase_key cmpLt l k).1 := by
  simp only [erase_key]
  split
  · exact List.Pairwise.sublist (List.eraseIdx_sublist l _) hs
  · exact hs

theorem applyOp_preserves (op : Op α) (s : List α × List α)
    (hA : List.Sorted (· < ·) s.1) (hB : List.Sorted (· < ·) s.2) :
    List.Sorted (· < ·) (applyOp cmpLt op s).1 ∧
      List.Sorted (· < ·) (applyOp cmpLt op s).2 := by
  obtain ⟨a, b⟩ := s
  cases op with
  | insertOp v => exact ⟨(insert_preserves hA v).1, hB⟩
  | insertHintOp h v => exact ⟨insert_hint_preserves hA h v, hB⟩
  | insertRangeOp vs =>
    refine ⟨?_, hB⟩
    show List.Sorted (· < ·) (insert_range cmpLt a vs)
    rw [insert_range]
    split
    · exact sort_unique_sorted vs
    · exact (foldl_insert_spec vs a hA).1
  | emplaceOp v =>
    refine ⟨?_, hB⟩
    show List.Sorted (· < ·) (emplace cmpLt a v).1
    rw [emplace_eq_insert]
    exact (insert_preserves hA v).1
  | erasePosOp i =>
    exact ⟨List.Pairwise.sublist (List.eraseIdx_sublist a i) hA, hB⟩
  | eraseKeyOp k => exact ⟨erase_key_fst_sorted hA k, hB⟩
  | clearOp => exact ⟨List.sorted_nil, hB⟩
  | swapOp => exact ⟨hB, hA⟩
  | assignListOp vs => exact ⟨sort_unique_sorted vs, hB⟩
  | assignOtherOp => exact ⟨hB, hB⟩

theorem applyOps_preserves :
    ∀ (ops : List (Op α)) (s : List α × List α),
      List.Sorted (· < ·) s.1 → List.Sorted (· < ·) s.2 →
      List.Sorted (· < ·) (applyOps cmpLt ops s).1 ∧
        List.Sorted (· < ·) (applyOps cmpLt ops s).2
  | [], _, hA, hB => ⟨hA, hB⟩
  | op :: ops, s, hA, hB => by
    rw [applyOps_cons]
    obtain ⟨h1, h2⟩ := applyOp_preserves op s hA hB
    exact applyOps_preserves ops _ h1 h2

end Ordered

/-! ### The claims -/

/-- Claim C1 (code bug).  The specification requires `find(k)` to return
the position of the element equivalent to `k` when one exists and the end
sentinel otherwise (equivalently, a non-end position iff `count(k) == 1`).
The condition in the code is inverted: on the valid container `[1, 2, 3]` the
present key `2` (with `count == 1`) makes `find` return the end sentinel
`3`, while the absent key `0` (with `count == 0`) makes `find` return the
non-end position `0`. -/
theorem find_contradicts_spec :
    validate cmpLt [1, 2, 3] = true ∧
      ((2 : Nat) ∈ [1, 2, 3] ∧ count cmpLt [1, 2, 3] 2 = 1 ∧
        find cmpLt [1, 2, 3] 2 = 3) ∧
      ((0 : Nat) ∉ [1, 2, 3] ∧ count cmpLt [1, 2, 3] 0 = 0 ∧
        find cmpLt [1, 2, 3] 0 = 0) := by
  decide

/-- Claim C2 (code bug).  The specification requires `erase(k)` to remove
the element equivalent to `k` and return 1 when present, and to be a no-op
returning 0 when absent.  Because `erase` locates the element with the
inverted `find`, on the valid container `[1, 2, 3]` erasing the present
key `2` removes nothing and returns 0, while erasing the absent key `0`
removes the element `1` and returns 1. -/
theorem erase_key_contradicts_spec :
    validate cmpLt [1, 2, 3] = true ∧
      ((2 : Nat) ∈ [1, 2, 3] ∧ erase_key cmpLt [1, 2, 3] 2 = ([1, 2, 3], 0)) ∧
      ((0 : Nat) ∉ [1, 2, 3] ∧ erase_key cmpLt [1, 2, 3] 0 = ([2, 3], 1)) := by
  decide

/-- Claim C3.  Starting from two containers built from arbitrary input,
after every sequence of public mutating calls (insert, hinted insert, bulk
insert, emplace, erase by position, erase by key, clear, swap, assignment
from a literal list and from the other container) both containers satisfy
`validate()`: the storage is non-descending under the comparator and no
two stored elements are equivalent.  Since the sequence of operations is
arbitrary, this holds after each call of any such sequence. -/
theorem invariant_preservation [LinearOrder α] (init initB : List α)
    (ops : List (Op α)) :
    validate cmpLt
        (applyOps cmpLt ops (of_list cmpLt init, of_list cmpLt initB)).1 =
        true ∧
      validate cmpLt
        (applyOps cmpLt ops (of_list cmpLt init, of_list cmpLt initB)).2 =
        true := by
  have h1 : List.Sorted (· < ·) (of_list cmpLt init) := sort_unique_sorted init
  have h2 : List.Sorted (· < ·) (of_list cmpLt initB) :=
    sort_unique_sorted initB
  obtain ⟨hA, hB⟩ :=
    applyOps_preserves ops (of_list cmpLt init, of_list cmpLt initB) h1 h2
  exact ⟨validate_iff_sorted.2 hA, validate_iff_sorted.2 hB⟩

/-- Claim C4.  On a container satisfying the invariants: if an element
equivalent to `v` is present, `insert(v)` changes nothing and returns the
position of that element paired with `false`; otherwise it places `v` at
its `lower_bound` position (shifting the rest) and returns that position
paired with `true`. -/
theorem insert_spec [LinearOrder α] (l : List α) (v : α)
    (h : validate cmpLt l = true) :
    ((∃ i, i < l.length ∧ equivalent cmpLt (l.getD i v) v = true) →
      insert cmpLt l v = (l, lower_bound cmpLt l v, false) ∧
        equivalent cmpLt (l.getD (lower_bound cmpLt l v) v) v = true) ∧
      ((∀ i, i < l.length → equivalent cmpLt (l.getD i v) v = false) →
        insert cmpLt l v =
          (l.insertIdx (lower_bound cmpLt l v) v, lower_bound cmpLt l v,
            true)) := by
  rw [validate_iff_sorted] at h
  constructor
  · intro hex
    have hv : v ∈ l := exists_equivalent_iff_mem.1 hex
    obtain ⟨h1, h2⟩ := (mem_iff_lower_bound h).1 hv
    exact ⟨insert_sorted_mem h hv, equivalent_cmpLt_iff.2 h2⟩
  · intro hall
    have hv : v ∉ l := by
      intro hv
      obtain ⟨i, hi, he⟩ := exists_equivalent_iff_mem.2 hv
      rw [hall i hi] at he
      exact Bool.noConfusion he
    exact insert_sorted_not_mem h hv

/-- Witness for C4 at the container `[1, 3]`: inserting the present key
`3` is a rejected no-op, inserting the absent key `2` succeeds at
position 1. -/
theorem insert_spec_witness :
    insert cmpLt [1, 3] (3 : Nat) = ([1, 3], 1, false) ∧
      insert cmpLt [1, 3] (2 : Nat) = ([1, 2, 3], 1, true) := by
  constructor
  · exact Eq.trans
      ((insert_spec [1, 3] 3 (by decide)).1 ⟨1, by decide, by decide⟩).1
      (by decide)
  · exact Eq.trans ((insert_spec [1, 3] 2 (by decide)).2 (by decide))
      (by decide)

/-- Claim C5.  On a container satisfying the invariants and any position
`hint` between begin and end, the hinted insert produces exactly the
contents of the plain `insert(v)`; when `good_hint` accepts the hint the
element is placed directly at `hint`, and the result always satisfies
`validate()` — a bad hint never violates the invariants. -/
theorem insert_hint_spec [LinearOrder α] (l : List α) (hint : Nat) (v : α)
    (hval : validate cmpLt l = true) (hle : hint ≤ l.length) :
    insert_hint cmpLt l hint v = (insert cmpLt l v).1 ∧
      (good_hint cmpLt l hint v = true →
        insert_hint cmpLt l hint v = l.insertIdx hint v) ∧
      validate cmpLt (insert_hint cmpLt l hint v) = true := by
  rw [validate_iff_sorted] at hval
  refine ⟨insert_hint_eq hval hint v, fun hg => ?_, ?_⟩
  · rw [insert_hint, if_pos hg]
  · exact validate_iff_sorted.2 (insert_hint_preserves hval hint v)

/-- Witness for C5 at the container `[1, 3]` with the valid hint `1` for
the value `2`. -/
theorem insert_hint_spec_witness :
    insert_hint cmpLt [1, 3] 1 (2 : Nat) = (insert cmpLt [1, 3] 2).1 ∧
      (good_hint cmpLt [1, 3] 1 (2 : Nat) = true →
        insert_hint cmpLt [1, 3] 1 2 = [1, 3].insertIdx 1 2) ∧
      validate cmpLt (insert_hint cmpLt [1, 3] 1 (2 : Nat)) = true :=
  insert_hint_spec [1, 3] 1 2 (by decide) (by decide)

/-- Claim C6.  Constructing from the unsorted duplicate-containing input
`[5, 1, 3, 1, 5, 2]` under the default ascending comparator yields exactly
`[1, 2, 3, 5]`, and in general every creation path sorts the input and
collapses equivalent values to one representative: the result validates
and holds exactly the values of the input. -/
theorem construction_normalizes [LinearOrder α] (l : List α) :
    of_list cmpLt [5, 1, 3, 1, 5, 2] = ([1, 2, 3, 5] : List Nat) ∧
      validate cmpLt (of_list cmpLt l) = true ∧
      ∀ x, x ∈ of_list cmpLt l ↔ x ∈ l :=
  ⟨by decide, validate_iff_sorted.2 (sort_unique_sorted l),
    fun _ => mem_sort_unique⟩

/-- Claim C7.  On a container satisfying the invariants, inserting the
same value twice leaves contents (hence the key set) and size unchanged
after the second call, and the second call reports failure. -/
theorem insert_idempotent [LinearOrder α] (l : List α) (v : α)
    (h : validate cmpLt l = true) :
    (insert cmpLt (insert cmpLt l v).1 v).1 = (insert cmpLt l v).1 ∧
      (insert cmpLt (insert cmpLt l v).1 v).2.2 = false ∧
      (insert cmpLt (insert cmpLt l v).1 v).1.length =
        (insert cmpLt l v).1.length := by
  rw [validate_iff_sorted] at h
  obtain ⟨hs1, hm1⟩ := insert_preserves h v
  have hv1 : v ∈ (insert cmpLt l v).1 := (hm1 v).2 (Or.inl rfl)
  rw [insert_sorted_mem hs1 hv1]
  exact ⟨rfl, rfl, rfl⟩

/-- Witness for C7 at the container `[1, 3]` with the value `2`. -/
theorem insert_idempotent_witness :
    (insert cmpLt (insert cmpLt [1, 3] (2 : Nat)).1 2).1 =
        (insert cmpLt [1, 3] (2 : Nat)).1 ∧
      (insert cmpLt (insert cmpLt [1, 3] (2 : Nat)).1 2).2.2 = false ∧
      (insert cmpLt (insert cmpLt [1, 3] (2 : Nat)).1 2).1.length =
        (insert cmpLt [1, 3] (2 : Nat)).1.length :=
  insert_idempotent [1, 3] 2 (by decide)

/-- Claim C8.  Bulk `insert(first, last)` into an empty container (append
then sort and deduplicate) produces the same final contents as inserting
the same values one at a time with single-element `insert`, in any order
of the input. -/
theorem bulk_incremental_equiv [LinearOrder α] (vs vs' : List α)
    (hperm : List.Perm vs vs') :
    insert_range cmpLt [] vs =
      vs'.foldl (fun acc v => (insert cmpLt acc v).1) [] := by
  have hL : insert_range cmpLt [] vs = sort_unique cmpLt vs := by
    rw [insert_range]
    rfl
  obtain ⟨hs2, hm2⟩ := foldl_insert_spec vs' [] List.sorted_nil
  rw [hL]
  refine eq_of_sorted_lt_of_mem (sort_unique_sorted vs) hs2 fun x => ?_
  rw [mem_sort_unique, hm2 x]
  simp [hperm.mem_iff]

/-- Witness for C8: bulk-inserting `[3, 1, 2]` into an empty container
equals inserting the reordering `[2, 3, 1]` one element at a time. -/
theorem bulk_incremental_equiv_witness :
    insert_range cmpLt [] [3, 1, 2] =
      List.foldl (fun acc v => (insert cmpLt acc v).1) []
        ([2, 3, 1] : List Nat) :=
  bulk_incremental_equiv [3, 1, 2] [2, 3, 1] (by decide)

/-- Claim C9.  `try_wait()` never blocks: with a positive count it
decrements the count by exactly one, leaves the waiter count alone and
returns `true`; with a zero count it returns `false` and leaves the whole
state unchanged. -/
theorem try_wait_spec (s : Semaphore) :
    (0 < s.count →
      Semaphore.try_wait s =
        ({ count := s.count - 1, waiters := s.waiters }, true)) ∧
      (s.count = 0 → Semaphore.try_wait s = (s, false)) := by
  constructor
  · intro h
    rw [Semaphore.try_wait, if_pos h]
  · intro h
    rw [Semaphore.try_wait, if_neg (by omega)]

/-- Witness for C9 at the states `⟨2, 5⟩` and `⟨0, 5⟩`. -/
theorem try_wait_spec_witness :
    Semaphore.try_wait ⟨2, 5⟩ = (⟨1, 5⟩, true) ∧
      Semaphore.try_wait ⟨0, 5⟩ = (⟨0, 5⟩, false) :=
  ⟨(try_wait_spec ⟨2, 5⟩).1 (by decide), (try_wait_spec ⟨0, 5⟩).2 rfl⟩

/-- Claim C10.  `capacity()` returns `N` whatever the contents; reading
index `i` right after writing `v` there yields `v`, and every other index
is unchanged.  Indices are `Fin N`, reflecting that `i < N` is a
precondition of the unchecked `operator[]`. -/
theorem raw_array_spec {β : Type u} {N : Nat} (a : RawArray β N)
    (i j : Fin N) (v : β) (hne : j ≠ i) :
    RawArray.capacity a = N ∧
      RawArray.capacity (RawArray.write a i v) = N ∧
      RawArray.read (RawArray.write a i v) i = some v ∧
      RawArray.read (RawArray.write a i v) j = RawArray.read a j := by
  refine ⟨rfl, rfl, ?_, ?_⟩
  · show Function.update a.data i (some v) i = some v
    exact Function.update_same i (some v) a.data
  · show Function.update a.data i (some v) j = a.data j
    exact Function.update_noteq hne (some v) a.data

/-- Witness for C10 on a two-slot array, writing `7` at index 0 and
reading back indices 0 and 1. -/
theorem raw_array_spec_witness :
    ((1 : Fin 2) ≠ 0) ∧
      (RawArray.capacity rawArrayEx = 2 ∧
        RawArray.capacity (RawArray.write rawArrayEx 0 7) = 2 ∧
        RawArray.read (RawArray.write rawArrayEx 0 7) 0 = some 7 ∧
        RawArray.read (RawArray.write rawArrayEx 0 7) 1 =
          RawArray.read rawArrayEx 1) :=
  ⟨by decide, raw_array_spec rawArrayEx 0 1 7 (by decide)⟩

end LibcppUtil
